import Mathlib

/-!
Verification of the `cached` repository (a process-local memoizing cache
for variadic Go functions, `src/cached.go`).

The embedding translates the data model and the operations of
`NewCachedFunction` and of the expiry sweeper started by
`NewFunctionCache`.  Go maps are embedded as association lists with
no duplicate keys (`WF`); `time.Time` values are embedded as integers,
`time.Since t` at sweep time `now` being `now - t`; Go `interface{}`
results are `Option GoVal`, with `none` standing for Go `nil`.

The `sync.Mutex` `m` of `FunctionCache` delimits the atomic sections of
the code; the sequential function `cachedCall` composes those sections
in program order, and the small-step system `Sys`/`step` executes one
atomic section of one goroutine at a time, so that interleavings of
concurrent callers can be examined.  The per-key `mutex` and `cond`
maps carry no data relevant to the claims; the blocking/broadcast
behaviour of the condition variable is represented by the
`waiting`/`woken` program counters of `step`.
-/

namespace Cached

/-- Go values appearing as arguments or results of the wrapped function. -/
inductive GoVal
  | vint (n : Int)
  | vstr (s : String)
  | vbool (b : Bool)
  deriving DecidableEq, Repr

/-- Rendering of one value by Go `fmt` verb `%v`: integers in decimal,
strings verbatim, booleans as `true`/`false`. -/
def govString : GoVal → String
  | .vint n => toString n
  | .vstr s => s
  | .vbool b => if b then "true" else "false"

/-- The fingerprint `key := fmt.Sprintf("%v", args)` of src/cached.go line 76:
a `[]interface{}` slice prints as its elements' `%v` renderings separated by
single spaces, inside brackets. -/
def goKey (args : List GoVal) : String :=
  "[" ++ String.intercalate " " (args.map govString) ++ "]"

/-- Association-list lookup, embedding a Go map read `m[k]` with comma-ok. -/
def alLookup {α : Type} : List (String × α) → String → Option α
  | [], _ => none
  | p :: rest, k => if p.1 = k then some p.2 else alLookup rest k

/-- Association-list removal, embedding Go `delete(m, k)`. -/
def alErase {α : Type} : List (String × α) → String → List (String × α)
  | [], _ => []
  | p :: rest, k => if p.1 = k then alErase rest k else p :: alErase rest k

/-- Association-list write, embedding Go `m[k] = v`. -/
def alInsert {α : Type} (l : List (String × α)) (k : String) (v : α) :
    List (String × α) :=
  alErase l k ++ [(k, v)]

/-- Key-list removal, embedding Go `delete(m, k)` for the set-like
`inflight` map. -/
def slErase : List String → String → List String
  | [], _ => []
  | s :: rest, k => if s = k then slErase rest k else s :: slErase rest k

/-- Key-list write, embedding Go `m[k] = true` for the set-like
`inflight` map. -/
def slInsert (l : List String) (k : String) : List String :=
  if k ∈ l then l else k :: l

/-- The keys of an association list. -/
def keysOf {α : Type} (l : List (String × α)) : List String :=
  l.map Prod.fst

/-- The data content of the `FunctionCache` structure (src/cached.go
lines 31-39): result map `cache`, insertion-time map `entry`, in-flight
marker map `inflight` and waiter counters `waits`.  The fields `m`,
`mutex` and `cond` are synchronization primitives holding no data. -/
structure FunctionCache where
  cache : List (String × Option GoVal)
  entry : List (String × Int)
  inflight : List String
  waits : List (String × Nat)
  deriving DecidableEq, Repr

/-- A `FunctionCache` is well formed when the `cache` map has no duplicate
keys and `cache` and `entry` hold exactly the same keys, as maintained by
every code path of src/cached.go. -/
def WF (fc : FunctionCache) : Prop :=
  (keysOf fc.cache).Nodup ∧ keysOf fc.cache = keysOf fc.entry

/-- The fresh store built by `NewFunctionCache` (src/cached.go lines 43-50). -/
def emptyFC : FunctionCache :=
  { cache := [], entry := [], inflight := [], waits := [] }

/-- One step of the oldest-entry scan of src/cached.go lines 84-89:
replace the candidate when `oldestTime.IsZero()` (the `none` accumulator)
or `t.Before(oldestTime)` (strict comparison). -/
def oldStep (acc : Option (String × Int)) (kt : String × Int) :
    Option (String × Int) :=
  match acc with
  | none => some kt
  | some best => if kt.2 < best.2 then some kt else acc

/-- The oldest-entry scan of src/cached.go lines 82-89: fold over the
`entry` map. -/
def findOldest (l : List (String × Int)) : Option (String × Int) :=
  l.foldl oldStep none

/-- The capacity-limit section of src/cached.go lines 79-94: when
`len(cache) >= MaxCacheSize`, delete the key with the oldest insertion
time from both `cache` and `entry` (the zero-value key `""` when the
`entry` map is empty). -/
def capacityEvict (maxSize : Nat) (fc : FunctionCache) : FunctionCache :=
  if maxSize ≤ fc.cache.length then
    let oldestKey :=
      match findOldest fc.entry with
      | some kt => kt.1
      | none => ""
    { fc with cache := alErase fc.cache oldestKey,
              entry := alErase fc.entry oldestKey }
  else fc

/-- One call of the function returned by `NewCachedFunction`
(src/cached.go lines 75-159), executed single-threadedly: the capacity
section (79-94), the memoization section (97-103), the in-flight waiter
section (106-126), and otherwise the computer path — register (129-133),
invoke `f` (137), store (140-143), notify and unregister (146-154).
In a single-threaded run no other goroutine mutates the store between a
waiter's suspension and its wake, so the waiter branch re-reads the
unchanged store (interleaved executions are handled by `step` below).
Returns the call's result, the resulting store, and the number of
invocations of the underlying `f` during the call. -/
def cachedCall (f : List GoVal → Option GoVal) (maxSize : Nat) (now : Int)
    (fc : FunctionCache) (args : List GoVal) :
    Option GoVal × FunctionCache × Nat :=
  let key := goKey args
  let fc := capacityEvict maxSize fc
  match alLookup fc.cache key with
  | some result => (result, fc, 0)
  | none =>
    if key ∈ fc.inflight then
      let fc := { fc with
        waits := alInsert fc.waits key ((alLookup fc.waits key).getD 0 + 1) }
      match alLookup fc.cache key with
      | some result => (result, fc, 0)
      | none => (none, fc, 0)
    else
      let fc := { fc with inflight := slInsert fc.inflight key }
      let result := f args
      let fc := { fc with cache := alInsert fc.cache key result,
                          entry := alInsert fc.entry key now }
      let fc :=
        if key ∈ fc.inflight then { fc with inflight := slErase fc.inflight key }
        else fc
      (result, fc, 1)

/-- A sequence of single-threaded calls of the wrapped function, each with
its argument tuple and its `time.Now()` value. -/
def runCalls (f : List GoVal → Option GoVal) (maxSize : Nat)
    (calls : List (List GoVal × Int)) (fc : FunctionCache) : FunctionCache :=
  calls.foldl (fun acc c => (cachedCall f maxSize c.2 acc c.1).2.1) fc

/-- One step of the expiry-sweeper fold body. -/
def sweepStep (now expiry : Int) (acc : FunctionCache) (kt : String × Int) :
    FunctionCache :=
  if expiry < now - kt.2 then
    { acc with cache := alErase acc.cache kt.1, entry := alErase acc.entry kt.1 }
  else acc

/-- One cycle of the expiry sweeper of src/cached.go lines 59-66, at sweep
time `now`: iterate the `entry` map and delete from `cache` and `entry`
every key whose age `time.Since(t) = now - t` exceeds `CacheExpiryTime`. -/
def sweepOnce (now expiry : Int) (fc : FunctionCache) : FunctionCache :=
  fc.entry.foldl (sweepStep now expiry) fc

/-! Lemmas on association lists. -/

theorem alLookup_eq_none {α : Type} (l : List (String × α)) (k : String) :
    alLookup l k = none ↔ k ∉ keysOf l := by
  induction l with
  | nil => simp [alLookup, keysOf]
  | cons p rest ih =>
    simp only [alLookup, keysOf, List.map_cons, List.mem_cons, not_or]
    by_cases h : p.1 = k
    · subst h
      simp
    · have hk : ¬k = p.1 := fun he => h he.symm
      simp only [if_neg h, hk, not_false_iff, true_and]
      simpa [keysOf] using ih

theorem alLookup_mem {α : Type} {l : List (String × α)} {k : String} {v : α}
    (hnd : (keysOf l).Nodup) (hm : (k, v) ∈ l) : alLookup l k = some v := by
  induction l with
  | nil => simp at hm
  | cons p rest ih =>
    simp only [keysOf, List.map_cons, List.nodup_cons] at hnd
    rcases List.mem_cons.1 hm with h | h
    · subst h; simp [alLookup]
    · have hk : p.1 ≠ k := by
        intro he
        exact hnd.1 (he ▸ (List.mem_map.2 ⟨(k, v), h, rfl⟩))
      simp [alLookup, hk]
      exact ih hnd.2 h

theorem alLookup_alErase_self {α : Type} (l : List (String × α)) (k : String) :
    alLookup (alErase l k) k = none := by
  induction l with
  | nil => simp [alErase, alLookup]
  | cons p rest ih =>
    by_cases h : p.1 = k <;> simp [alErase, alLookup, h, ih]

theorem alLookup_alErase_ne {α : Type} (l : List (String × α)) {k k' : String}
    (h : k' ≠ k) : alLookup (alErase l k) k' = alLookup l k' := by
  have hkk : ¬k = k' := fun he => h he.symm
  induction l with
  | nil => simp [alErase]
  | cons p rest ih =>
    by_cases h1 : p.1 = k
    · simp [alErase, alLookup, h1, hkk, ih]
    · by_cases h2 : p.1 = k' <;> simp [alErase, alLookup, h1, h2, h, ih]

theorem alErase_of_not_mem {α : Type} {l : List (String × α)} {k : String}
    (h : k ∉ keysOf l) : alErase l k = l := by
  induction l with
  | nil => rfl
  | cons p rest ih =>
    simp only [keysOf, List.map_cons, List.mem_cons] at h
    push_neg at h
    have h1 : ¬p.1 = k := fun he => h.1 he.symm
    simp [alErase, h1, ih (by simpa [keysOf] using h.2)]

theorem alLookup_alInsert_self {α : Type} (l : List (String × α)) (k : String)
    (v : α) : alLookup (alInsert l k v) k = some v := by
  unfold alInsert
  induction l with
  | nil => simp [alErase, alLookup]
  | cons p rest ih =>
    by_cases h : p.1 = k <;> simp [alErase, alLookup, h, ih]

theorem alLookup_alInsert_ne {α : Type} (l : List (String × α)) {k k' : String}
    (v : α) (h : k' ≠ k) : alLookup (alInsert l k v) k' = alLookup l k' := by
  have hkk : ¬k = k' := fun he => h he.symm
  unfold alInsert
  induction l with
  | nil => simp [alErase, alLookup, hkk]
  | cons p rest ih =>
    by_cases h1 : p.1 = k
    · simp [alErase, alLookup, h1, hkk, ih]
    · by_cases h2 : p.1 = k' <;> simp [alErase, alLookup, h1, h2, h, hkk, ih]

theorem keysOf_alErase {α : Type} (l : List (String × α)) (k : String) :
    keysOf (alErase l k) = slErase (keysOf l) k := by
  induction l with
  | nil => rfl
  | cons p rest ih =>
    by_cases h : p.1 = k <;> simp [alErase, keysOf, slErase, h] at * <;>
      simpa [keysOf] using ih

theorem slErase_sublist (l : List String) (k : String) :
    List.Sublist (slErase l k) l := by
  induction l with
  | nil => simp [slErase]
  | cons s rest ih =>
    by_cases h : s = k
    · simp only [slErase, if_pos h]
      exact ih.cons s
    · simp only [slErase, if_neg h]
      exact ih.cons₂ s

theorem mem_slErase {l : List String} {k k' : String} :
    k' ∈ slErase l k ↔ k' ∈ l ∧ k' ≠ k := by
  induction l with
  | nil => simp [slErase]
  | cons s rest ih =>
    by_cases h : s = k
    · subst h
      simp only [slErase, eq_self_iff_true, if_true, ih, List.mem_cons]
      constructor
      · exact fun hp => ⟨Or.inr hp.1, hp.2⟩
      · rintro ⟨h1 | h1, h2⟩
        · exact absurd h1 h2
        · exact ⟨h1, h2⟩
    · simp only [slErase, if_neg h, List.mem_cons, ih]
      constructor
      · rintro (h1 | ⟨h1, h2⟩)
        · subst h1
          exact ⟨Or.inl rfl, fun he => h he⟩
        · exact ⟨Or.inr h1, h2⟩
      · rintro ⟨h1 | h1, h2⟩
        · exact Or.inl h1
        · exact Or.inr ⟨h1, h2⟩

theorem nodup_alErase {α : Type} {l : List (String × α)} (k : String)
    (hnd : (keysOf l).Nodup) : (keysOf (alErase l k)).Nodup := by
  rw [keysOf_alErase]
  exact hnd.sublist (slErase_sublist _ _)

theorem keysOf_alInsert {α : Type} (l : List (String × α)) (k : String) (v : α) :
    keysOf (alInsert l k v) = keysOf (alErase l k) ++ [k] := by
  simp [alInsert, keysOf]

theorem nodup_alInsert {α : Type} {l : List (String × α)} (k : String) (v : α)
    (hnd : (keysOf l).Nodup) : (keysOf (alInsert l k v)).Nodup := by
  rw [keysOf_alInsert, keysOf_alErase]
  rw [List.nodup_append]
  refine ⟨hnd.sublist (slErase_sublist _ _), List.nodup_singleton k, ?_⟩
  intro a ha hb
  rw [List.mem_singleton] at hb
  subst hb
  exact (mem_slErase.1 ha).2 rfl

theorem length_alErase_of_mem {α : Type} {l : List (String × α)} {k : String}
    (hnd : (keysOf l).Nodup) (hm : k ∈ keysOf l) :
    (alErase l k).length + 1 = l.length := by
  induction l with
  | nil => simp [keysOf] at hm
  | cons p rest ih =>
    simp only [keysOf, List.map_cons, List.nodup_cons] at hnd
    rcases List.mem_cons.1 hm with h | h
    · have : alErase (p :: rest) k = rest := by
        have h1 : p.1 = k := h.symm
        have h2 : k ∉ keysOf rest := h1 ▸ hnd.1
        simp [alErase, h1, alErase_of_not_mem h2]
      simp [this]
    · have h1 : p.1 ≠ k := by
        rintro rfl
        exact hnd.1 h
      simp only [alErase, if_neg h1, List.length_cons]
      rw [← ih hnd.2 h]

theorem length_alInsert {α : Type} (l : List (String × α)) (k : String) (v : α) :
    (alInsert l k v).length = (alErase l k).length + 1 := by
  simp [alInsert]

theorem keysOf_length {α : Type} (l : List (String × α)) :
    (keysOf l).length = l.length := by
  simp [keysOf]

theorem alLookup_unique {α : Type} {l : List (String × α)} {k : String}
    {v v' : α} (hnd : (keysOf l).Nodup) (h1 : (k, v) ∈ l) (h2 : (k, v') ∈ l) :
    v = v' := by
  have e1 := alLookup_mem hnd h1
  have e2 := alLookup_mem hnd h2
  rw [e1] at e2
  exact Option.some.inj e2

/-! Lemmas on the oldest-entry scan. -/

theorem foldl_oldStep_isSome (l : List (String × Int)) (p : String × Int) :
    (List.foldl oldStep (some p) l).isSome := by
  induction l generalizing p with
  | nil => simp
  | cons x xs ih =>
    simp only [List.foldl_cons, oldStep]
    by_cases h : x.2 < p.2 <;> simp [h, ih]

theorem findOldest_of_ne_nil {l : List (String × Int)} (h : l ≠ []) :
    ∃ p, findOldest l = some p := by
  match l with
  | [] => exact absurd rfl h
  | x :: xs =>
    have := foldl_oldStep_isSome xs x
    rcases Option.isSome_iff_exists.1 this with ⟨p, hp⟩
    exact ⟨p, by simpa [findOldest, oldStep] using hp⟩

theorem foldl_oldStep_mem {l : List (String × Int)}
    {acc : Option (String × Int)} {p : String × Int}
    (h : List.foldl oldStep acc l = some p) : p ∈ l ∨ acc = some p := by
  induction l generalizing acc with
  | nil => exact Or.inr h
  | cons x xs ih =>
    rcases ih (by simpa using h) with hm | hacc
    · exact Or.inl (List.mem_cons_of_mem _ hm)
    · match acc with
      | none =>
        simp only [oldStep] at hacc
        exact Or.inl (List.mem_cons.2 (Or.inl (Option.some.inj hacc).symm))
      | some best =>
        simp only [oldStep] at hacc
        by_cases hlt : x.2 < best.2
        · rw [if_pos hlt] at hacc
          exact Or.inl (List.mem_cons.2 (Or.inl (Option.some.inj hacc).symm))
        · rw [if_neg hlt] at hacc
          exact Or.inr hacc

theorem foldl_oldStep_min {l : List (String × Int)}
    {acc : Option (String × Int)} {p : String × Int}
    (h : List.foldl oldStep acc l = some p) :
    (∀ q ∈ l, p.2 ≤ q.2) ∧ (∀ b, acc = some b → p.2 ≤ b.2) := by
  induction l generalizing acc with
  | nil =>
    simp only [List.foldl_nil] at h
    exact ⟨by simp, fun b hb => by rw [h] at hb; simp [Option.some.inj hb]⟩
  | cons x xs ih =>
    have h' : List.foldl oldStep (oldStep acc x) xs = some p := by simpa using h
    rcases ih h' with ⟨hxs, hacc⟩
    have hx : p.2 ≤ x.2 ∧ ∀ b, acc = some b → p.2 ≤ b.2 := by
      match acc with
      | none =>
        refine ⟨hacc x ?_, by simp⟩
        simp [oldStep]
      | some best =>
        by_cases hlt : x.2 < best.2
        · have hb : oldStep (some best) x = some x := by simp [oldStep, hlt]
          have h1 := hacc x hb
          exact ⟨h1, fun b hb2 => by
            obtain rfl : best = b := Option.some.inj hb2
            exact le_of_lt (lt_of_le_of_lt h1 hlt)⟩
        · have hb : oldStep (some best) x = some best := by simp [oldStep, hlt]
          have h1 := hacc best hb
          push_neg at hlt
          exact ⟨le_trans h1 hlt, fun b hb2 => by
            obtain rfl : best = b := Option.some.inj hb2
            exact h1⟩
    refine ⟨fun q hq => ?_, hx.2⟩
    rcases List.mem_cons.1 hq with h1 | h1
    · rw [h1]; exact hx.1
    · exact hxs q h1

/-- With pairwise-distinct insertion times, the scan of lines 82-89 finds
exactly the entry with the minimum time. -/
theorem findOldest_eq_min {l : List (String × Int)} {k0 : String} {t0 : Int}
    (hdis : l.Pairwise (fun p q => p.2 ≠ q.2))
    (hmem : (k0, t0) ∈ l) (hmin : ∀ q ∈ l, t0 ≤ q.2) :
    findOldest l = some (k0, t0) := by
  have hne : l ≠ [] := by
    intro he
    rw [he] at hmem
    simp at hmem
  rcases findOldest_of_ne_nil hne with ⟨p, hp⟩
  have hfold : List.foldl oldStep none l = some p := by
    simpa [findOldest] using hp
  have hpm : p ∈ l := by
    rcases foldl_oldStep_mem hfold with h | h
    · exact h
    · simp at h
  have hple : ∀ q ∈ l, p.2 ≤ q.2 := (foldl_oldStep_min hfold).1
  have heq : p.2 = t0 := le_antisymm (hple _ hmem) (hmin p hpm)
  have : p = (k0, t0) := by
    by_contra hneq
    have hsym : Symmetric (fun p q : String × Int => p.2 ≠ q.2) :=
      fun a b hab => hab.symm
    exact (List.Pairwise.forall hsym hdis hpm hmem hneq) heq
  rw [hp, this]

/-! Lemmas on the in-flight marker set. -/

theorem mem_slInsert_self (l : List String) (k : String) : k ∈ slInsert l k := by
  unfold slInsert
  by_cases h : k ∈ l <;> simp [h]

theorem slErase_of_not_mem {l : List String} {k : String} (h : k ∉ l) :
    slErase l k = l := by
  induction l with
  | nil => rfl
  | cons s rest ih =>
    simp only [List.mem_cons, not_or] at h
    have h1 : ¬s = k := fun he => h.1 he.symm
    simp [slErase, h1, ih h.2]

theorem slErase_slInsert (l : List String) (k : String) :
    slErase (slInsert l k) k = slErase l k := by
  unfold slInsert
  by_cases h : k ∈ l <;> simp [h, slErase]

/-! Characterization of the call paths of `NewCachedFunction`. -/

/-- When the store is strictly below `MaxCacheSize`, the capacity section
of lines 79-94 leaves it untouched. -/
theorem capacityEvict_of_lt (maxSize : Nat) (fc : FunctionCache)
    (h : fc.cache.length < maxSize) : capacityEvict maxSize fc = fc := by
  unfold capacityEvict
  rw [if_neg (by omega)]

/-- The capacity section preserves well-formedness and leaves the store
strictly below the bound; it touches neither `inflight` nor `waits`. -/
theorem capacityEvict_spec (maxSize : Nat) (fc : FunctionCache)
    (hmax : 1 ≤ maxSize) (hwf : WF fc) (hlen : fc.cache.length ≤ maxSize) :
    WF (capacityEvict maxSize fc) ∧
    (capacityEvict maxSize fc).cache.length < maxSize ∧
    (capacityEvict maxSize fc).inflight = fc.inflight ∧
    (capacityEvict maxSize fc).waits = fc.waits := by
  by_cases hc : maxSize ≤ fc.cache.length
  · have hfull : fc.cache.length = maxSize := le_antisymm hlen hc
    have hcne : fc.entry ≠ [] := by
      intro he
      have h1 : keysOf fc.entry = [] := by rw [he]; rfl
      have h2 : (keysOf fc.cache).length = 0 := by
        rw [hwf.2, h1]; rfl
      rw [keysOf_length] at h2
      omega
    rcases findOldest_of_ne_nil hcne with ⟨p, hp⟩
    have hpm : p ∈ fc.entry := by
      rcases foldl_oldStep_mem (by simpa [findOldest] using hp) with h | h
      · exact h
      · simp at h
    have hk_entry : p.1 ∈ keysOf fc.entry :=
      List.mem_map.2 ⟨p, hpm, rfl⟩
    have hk_cache : p.1 ∈ keysOf fc.cache := by rw [hwf.2]; exact hk_entry
    have huf : capacityEvict maxSize fc =
        { fc with cache := alErase fc.cache p.1, entry := alErase fc.entry p.1 } := by
      unfold capacityEvict
      rw [if_pos hc, hp]
    refine ⟨⟨?_, ?_⟩, ?_, ?_, ?_⟩
    · rw [huf]; exact nodup_alErase p.1 hwf.1
    · rw [huf]
      show keysOf (alErase fc.cache p.1) = keysOf (alErase fc.entry p.1)
      rw [keysOf_alErase, keysOf_alErase, hwf.2]
    · rw [huf]
      show (alErase fc.cache p.1).length < maxSize
      have := length_alErase_of_mem hwf.1 hk_cache
      omega
    · rw [huf]
    · rw [huf]
  · rw [capacityEvict_of_lt maxSize fc (by omega)]
    exact ⟨hwf, by omega, rfl, rfl⟩

/-- The memoization section of lines 97-103: a hit returns the cached
result, leaves the post-capacity store unchanged and does not invoke `f`. -/
theorem cachedCall_hit_eq (f : List GoVal → Option GoVal) (maxSize : Nat)
    (now : Int) (fc : FunctionCache) (args : List GoVal) (r : Option GoVal)
    (hhit : alLookup (capacityEvict maxSize fc).cache (goKey args) = some r) :
    cachedCall f maxSize now fc args = (r, capacityEvict maxSize fc, 0) := by
  simp only [cachedCall, hhit]

/-- The computer path of lines 128-158: on a miss with no in-flight marker,
the call invokes `f` once, stores the result with its timestamp, and
unregisters its own marker. -/
theorem cachedCall_miss_eq (f : List GoVal → Option GoVal) (maxSize : Nat)
    (now : Int) (fc : FunctionCache) (args : List GoVal)
    (hmiss : alLookup (capacityEvict maxSize fc).cache (goKey args) = none)
    (hnin : goKey args ∉ (capacityEvict maxSize fc).inflight) :
    cachedCall f maxSize now fc args =
      (f args,
       { cache := alInsert (capacityEvict maxSize fc).cache (goKey args) (f args),
         entry := alInsert (capacityEvict maxSize fc).entry (goKey args) now,
         inflight := slErase (capacityEvict maxSize fc).inflight (goKey args),
         waits := (capacityEvict maxSize fc).waits }, 1) := by
  simp only [cachedCall, hmiss, if_neg hnin, if_pos (mem_slInsert_self _ _)]
  rw [slErase_slInsert]

/-- Every single-threaded call preserves well-formedness, the emptiness of
the in-flight table, and the capacity bound. -/
theorem cachedCall_preserves (f : List GoVal → Option GoVal) (maxSize : Nat)
    (now : Int) (fc : FunctionCache) (args : List GoVal)
    (hmax : 1 ≤ maxSize) (hwf : WF fc) (hin : fc.inflight = [])
    (hlen : fc.cache.length ≤ maxSize) :
    WF (cachedCall f maxSize now fc args).2.1 ∧
    (cachedCall f maxSize now fc args).2.1.inflight = [] ∧
    (cachedCall f maxSize now fc args).2.1.cache.length ≤ maxSize := by
  obtain ⟨hwf', hlen', hinf', _⟩ := capacityEvict_spec maxSize fc hmax hwf hlen
  cases hlk : alLookup (capacityEvict maxSize fc).cache (goKey args) with
  | some r =>
    rw [cachedCall_hit_eq f maxSize now fc args r hlk]
    exact ⟨hwf', by rw [hinf', hin], le_of_lt hlen'⟩
  | none =>
    have hnin : goKey args ∉ (capacityEvict maxSize fc).inflight := by
      rw [hinf', hin]; simp
    rw [cachedCall_miss_eq f maxSize now fc args hlk hnin]
    have hkey : goKey args ∉ keysOf (capacityEvict maxSize fc).cache :=
      (alLookup_eq_none _ _).1 hlk
    refine ⟨⟨nodup_alInsert _ _ hwf'.1, ?_⟩, ?_, ?_⟩
    · show keysOf (alInsert _ _ _) = keysOf (alInsert _ _ _)
      rw [keysOf_alInsert, keysOf_alInsert, keysOf_alErase, keysOf_alErase, hwf'.2]
    · show slErase (capacityEvict maxSize fc).inflight (goKey args) = []
      rw [hinf', hin]; rfl
    · show (alInsert (capacityEvict maxSize fc).cache (goKey args) (f args)).length ≤ maxSize
      rw [length_alInsert, alErase_of_not_mem hkey]
      omega

/-! Lemmas on the expiry sweeper. -/

/-- Erasure of a list of keys, one `delete` at a time. -/
def multiErase {α : Type} (l : List (String × α)) (ks : List String) :
    List (String × α) :=
  ks.foldl alErase l

/-- The keys the sweep of lines 60-65 deletes: those whose age
`now - t` strictly exceeds the expiry time. -/
def expiredKeys (now expiry : Int) (l : List (String × Int)) : List String :=
  keysOf (l.filter (fun p => decide (expiry < now - p.2)))

theorem sweep_foldl_eq (now expiry : Int) (l : List (String × Int)) :
    ∀ acc : FunctionCache,
      List.foldl (sweepStep now expiry) acc l =
        { acc with cache := multiErase acc.cache (expiredKeys now expiry l),
                   entry := multiErase acc.entry (expiredKeys now expiry l) } := by
  induction l with
  | nil => intro acc; rfl
  | cons p rest ih =>
    intro acc
    by_cases h : expiry < now - p.2
    · have hstep : sweepStep now expiry acc p =
          { acc with cache := alErase acc.cache p.1, entry := alErase acc.entry p.1 } := by
        simp [sweepStep, h]
      have hek : expiredKeys now expiry (p :: rest) =
          p.1 :: expiredKeys now expiry rest := by
        simp [expiredKeys, keysOf, List.filter_cons, h]
      rw [List.foldl_cons, hstep, ih, hek]
      rfl
    · have hstep : sweepStep now expiry acc p = acc := by
        simp [sweepStep, h]
      have hek : expiredKeys now expiry (p :: rest) =
          expiredKeys now expiry rest := by
        simp [expiredKeys, keysOf, List.filter_cons, h]
      rw [List.foldl_cons, hstep, ih, hek]

theorem alLookup_multiErase {α : Type} (ks : List String) :
    ∀ (l : List (String × α)) (k : String),
      alLookup (multiErase l ks) k = if k ∈ ks then none else alLookup l k := by
  induction ks with
  | nil => intro l k; simp [multiErase]
  | cons k' ks ih =>
    intro l k
    have hme : multiErase l (k' :: ks) = multiErase (alErase l k') ks := rfl
    rw [hme, ih]
    by_cases h : k = k'
    · subst h
      by_cases h2 : k ∈ ks <;> simp [h2, alLookup_alErase_self]
    · by_cases h2 : k ∈ ks <;>
        simp [h2, h, alLookup_alErase_ne _ h]

theorem mem_expiredKeys {now expiry : Int} {l : List (String × Int)}
    {k : String} :
    k ∈ expiredKeys now expiry l ↔ ∃ t, (k, t) ∈ l ∧ expiry < now - t := by
  simp only [expiredKeys, keysOf, List.mem_map, List.mem_filter]
  constructor
  · rintro ⟨p, ⟨hpl, hpe⟩, hpk⟩
    exact ⟨p.2, by rw [← hpk]; exact hpl, by simpa using hpe⟩
  · rintro ⟨t, htl, hte⟩
    exact ⟨(k, t), ⟨htl, by simpa using hte⟩, rfl⟩

/-- Claim C7: one cycle of the expiry sweeper, executed at sweep time `now`,
removes from the store exactly those entries whose `insertedAt` is older
than `CacheExpiryTime` relative to `now` (age strictly greater than the
expiry time), and leaves every younger entry with its result and its
timestamp unchanged. -/
theorem sweep_removes_exactly_expired (now expiry : Int) (fc : FunctionCache)
    (hwf : WF fc) (k : String) (t : Int) (hmem : (k, t) ∈ fc.entry) :
    (expiry < now - t →
      alLookup (sweepOnce now expiry fc).entry k = none ∧
      alLookup (sweepOnce now expiry fc).cache k = none) ∧
    (now - t ≤ expiry →
      alLookup (sweepOnce now expiry fc).entry k = some t ∧
      alLookup (sweepOnce now expiry fc).cache k = alLookup fc.cache k) := by
  have hnde : (keysOf fc.entry).Nodup := hwf.2 ▸ hwf.1
  have hsw : sweepOnce now expiry fc =
      { fc with cache := multiErase fc.cache (expiredKeys now expiry fc.entry),
                entry := multiErase fc.entry (expiredKeys now expiry fc.entry) } :=
    sweep_foldl_eq now expiry fc.entry fc
  have hiff : k ∈ expiredKeys now expiry fc.entry ↔ expiry < now - t := by
    rw [mem_expiredKeys]
    constructor
    · rintro ⟨t', ht'm, ht'e⟩
      have e1 := alLookup_mem hnde hmem
      have e2 := alLookup_mem hnde ht'm
      rw [e1] at e2
      rw [Option.some.inj e2]
      exact ht'e
    · intro h
      exact ⟨t, hmem, h⟩
  constructor
  · intro hexp
    have hk : k ∈ expiredKeys now expiry fc.entry := hiff.2 hexp
    rw [hsw]
    constructor
    · show alLookup (multiErase fc.entry _) k = none
      rw [alLookup_multiErase, if_pos hk]
    · show alLookup (multiErase fc.cache _) k = none
      rw [alLookup_multiErase, if_pos hk]
  · intro hyoung
    have hk : k ∉ expiredKeys now expiry fc.entry := by
      rw [hiff]; omega
    rw [hsw]
    constructor
    · show alLookup (multiErase fc.entry _) k = some t
      rw [alLookup_multiErase, if_neg hk]
      exact alLookup_mem hnde hmem
    · show alLookup (multiErase fc.cache _) k = alLookup fc.cache k
      rw [alLookup_multiErase, if_neg hk]

/-- Witness for C7 at a concrete store: with expiry time 10 and sweep time
100, the entry inserted at time 5 (age 95) is removed together with its
cached result, and the entry inserted at time 95 (age 5) keeps its result
and timestamp. -/
theorem sweep_removes_exactly_expired_witness :
    ((10 : Int) < 100 - 5 ∧
      alLookup (sweepOnce 100 10
        { cache := [("[1]", some (GoVal.vint 10)), ("[2]", some (GoVal.vint 20))],
          entry := [("[1]", 5), ("[2]", 95)], inflight := [], waits := [] }).entry "[1]" = none ∧
      alLookup (sweepOnce 100 10
        { cache := [("[1]", some (GoVal.vint 10)), ("[2]", some (GoVal.vint 20))],
          entry := [("[1]", 5), ("[2]", 95)], inflight := [], waits := [] }).cache "[1]" = none) ∧
    ((100 : Int) - 95 ≤ 10 ∧
      alLookup (sweepOnce 100 10
        { cache := [("[1]", some (GoVal.vint 10)), ("[2]", some (GoVal.vint 20))],
          entry := [("[1]", 5), ("[2]", 95)], inflight := [], waits := [] }).entry "[2]" = some 95 ∧
      alLookup (sweepOnce 100 10
        { cache := [("[1]", some (GoVal.vint 10)), ("[2]", some (GoVal.vint 20))],
          entry := [("[1]", 5), ("[2]", 95)], inflight := [], waits := [] }).cache "[2]" =
        alLookup [("[1]", some (GoVal.vint 10)), ("[2]", some (GoVal.vint 20))] "[2]") := by
  refine ⟨⟨by decide, ?_, ?_⟩, ⟨by decide, ?_, ?_⟩⟩
  · exact ((sweep_removes_exactly_expired 100 10
      { cache := [("[1]", some (GoVal.vint 10)), ("[2]", some (GoVal.vint 20))],
        entry := [("[1]", 5), ("[2]", 95)], inflight := [], waits := [] }
      ⟨by decide, by decide⟩ "[1]" 5 (by decide)).1 (by decide)).1
  · exact ((sweep_removes_exactly_expired 100 10
      { cache := [("[1]", some (GoVal.vint 10)), ("[2]", some (GoVal.vint 20))],
        entry := [("[1]", 5), ("[2]", 95)], inflight := [], waits := [] }
      ⟨by decide, by decide⟩ "[1]" 5 (by decide)).1 (by decide)).2
  · exact ((sweep_removes_exactly_expired 100 10
      { cache := [("[1]", some (GoVal.vint 10)), ("[2]", some (GoVal.vint 20))],
        entry := [("[1]", 5), ("[2]", 95)], inflight := [], waits := [] }
      ⟨by decide, by decide⟩ "[2]" 95 (by decide)).2 (by decide)).1
  · exact ((sweep_removes_exactly_expired 100 10
      { cache := [("[1]", some (GoVal.vint 10)), ("[2]", some (GoVal.vint 20))],
        entry := [("[1]", 5), ("[2]", 95)], inflight := [], waits := [] }
      ⟨by decide, by decide⟩ "[2]" 95 (by decide)).2 (by decide)).2

/-- Claim C8: a sweep cycle removes entries only from the result store
(the `cache` and `entry` maps); it never removes any key from the
in-flight-marker table (`inflight`, and likewise the `waits` counters),
so an in-flight computation is never unregistered by the sweeper. -/
theorem sweep_preserves_inflight (now expiry : Int) (fc : FunctionCache) :
    (sweepOnce now expiry fc).inflight = fc.inflight ∧
    (sweepOnce now expiry fc).waits = fc.waits := by
  have hsw := sweep_foldl_eq now expiry fc.entry fc
  rw [sweepOnce, hsw]
  exact ⟨rfl, rfl⟩

theorem runCalls_cons (f : List GoVal → Option GoVal) (maxSize : Nat)
    (c : List GoVal × Int) (rest : List (List GoVal × Int))
    (fc : FunctionCache) :
    runCalls f maxSize (c :: rest) fc =
      runCalls f maxSize rest (cachedCall f maxSize c.2 fc c.1).2.1 := rfl

/-- Claim C1: calling the wrapped function twice with the same argument
tuple — the tuple not cached before the first call, and no eviction
occurring (the store stays strictly below capacity) — returns identical
results both times, and the underlying `f` is invoked exactly once across
the two calls. -/
theorem memoization_idempotent (f : List GoVal → Option GoVal)
    (maxSize : Nat) (now₁ now₂ : Int) (fc : FunctionCache) (args : List GoVal)
    (hin : fc.inflight = [])
    (hfresh : alLookup fc.cache (goKey args) = none)
    (hlen : fc.cache.length + 1 < maxSize) :
    (cachedCall f maxSize now₂ (cachedCall f maxSize now₁ fc args).2.1 args).1
      = (cachedCall f maxSize now₁ fc args).1 ∧
    (cachedCall f maxSize now₁ fc args).2.2 +
      (cachedCall f maxSize now₂ (cachedCall f maxSize now₁ fc args).2.1 args).2.2
      = 1 := by
  have he1 : capacityEvict maxSize fc = fc :=
    capacityEvict_of_lt maxSize fc (by omega)
  have hmiss : alLookup (capacityEvict maxSize fc).cache (goKey args) = none := by
    rw [he1]; exact hfresh
  have hnin : goKey args ∉ (capacityEvict maxSize fc).inflight := by
    rw [he1, hin]; simp
  have hc1 := cachedCall_miss_eq f maxSize now₁ fc args hmiss hnin
  rw [hc1]
  have hkey : goKey args ∉ keysOf fc.cache := (alLookup_eq_none _ _).1 hfresh
  have hlen1 : (alInsert (capacityEvict maxSize fc).cache (goKey args) (f args)).length
      = fc.cache.length + 1 := by
    rw [he1, length_alInsert, alErase_of_not_mem hkey]
  have he2 : capacityEvict maxSize
      { cache := alInsert (capacityEvict maxSize fc).cache (goKey args) (f args),
        entry := alInsert (capacityEvict maxSize fc).entry (goKey args) now₁,
        inflight := slErase (capacityEvict maxSize fc).inflight (goKey args),
        waits := (capacityEvict maxSize fc).waits } =
      { cache := alInsert (capacityEvict maxSize fc).cache (goKey args) (f args),
        entry := alInsert (capacityEvict maxSize fc).entry (goKey args) now₁,
        inflight := slErase (capacityEvict maxSize fc).inflight (goKey args),
        waits := (capacityEvict maxSize fc).waits } := by
    apply capacityEvict_of_lt
    show (alInsert (capacityEvict maxSize fc).cache (goKey args) (f args)).length < maxSize
    omega
  have hhit2 : alLookup (capacityEvict maxSize
      { cache := alInsert (capacityEvict maxSize fc).cache (goKey args) (f args),
        entry := alInsert (capacityEvict maxSize fc).entry (goKey args) now₁,
        inflight := slErase (capacityEvict maxSize fc).inflight (goKey args),
        waits := (capacityEvict maxSize fc).waits }).cache (goKey args)
      = some (f args) := by
    rw [he2]
    exact alLookup_alInsert_self _ _ _
  rw [cachedCall_hit_eq f maxSize now₂ _ args (f args) hhit2]
  exact ⟨rfl, rfl⟩

/-- Witness for C1: two calls with the tuple `(1, 2)` on the empty store
with capacity 1000 return the same result with one underlying invocation. -/
theorem memoization_idempotent_witness :
    (emptyFC.inflight = [] ∧
     alLookup emptyFC.cache (goKey [GoVal.vint 1, GoVal.vint 2]) = none ∧
     emptyFC.cache.length + 1 < 1000) ∧
    ((cachedCall (fun a => some (GoVal.vint a.length)) 1000 1
        (cachedCall (fun a => some (GoVal.vint a.length)) 1000 0 emptyFC
          [GoVal.vint 1, GoVal.vint 2]).2.1 [GoVal.vint 1, GoVal.vint 2]).1
      = (cachedCall (fun a => some (GoVal.vint a.length)) 1000 0 emptyFC
          [GoVal.vint 1, GoVal.vint 2]).1 ∧
     (cachedCall (fun a => some (GoVal.vint a.length)) 1000 0 emptyFC
        [GoVal.vint 1, GoVal.vint 2]).2.2 +
       (cachedCall (fun a => some (GoVal.vint a.length)) 1000 1
         (cachedCall (fun a => some (GoVal.vint a.length)) 1000 0 emptyFC
           [GoVal.vint 1, GoVal.vint 2]).2.1 [GoVal.vint 1, GoVal.vint 2]).2.2
       = 1) :=
  ⟨⟨rfl, rfl, by decide⟩,
   memoization_idempotent (fun a => some (GoVal.vint a.length)) 1000 0 1
     emptyFC [GoVal.vint 1, GoVal.vint 2] rfl rfl (by decide)⟩

/-- Claim C2: after any sequence of single-threaded calls to the wrapped
function, starting from a well-formed store within its bound (with a
positive `MaxCacheSize`), `len(store) ≤ MaxCacheSize` still holds: the
check-then-evict-then-insert discipline never exceeds the bound. -/
theorem capacity_bound_invariant (f : List GoVal → Option GoVal)
    (maxSize : Nat) (calls : List (List GoVal × Int)) (fc : FunctionCache)
    (hmax : 1 ≤ maxSize) (hwf : WF fc) (hin : fc.inflight = [])
    (hlen : fc.cache.length ≤ maxSize) :
    (runCalls f maxSize calls fc).cache.length ≤ maxSize := by
  induction calls generalizing fc with
  | nil => exact hlen
  | cons c rest ih =>
    rw [runCalls_cons]
    obtain ⟨hwf', hin', hlen'⟩ :=
      cachedCall_preserves f maxSize c.2 fc c.1 hmax hwf hin hlen
    exact ih _ hwf' hin' hlen'

/-- Witness for C2: three distinct calls against capacity 1 leave at most
one entry in the store. -/
theorem capacity_bound_invariant_witness :
    (1 ≤ 1 ∧ WF emptyFC ∧ emptyFC.inflight = [] ∧ emptyFC.cache.length ≤ 1) ∧
    (runCalls (fun _ => none) 1
      [([GoVal.vint 1], 0), ([GoVal.vint 2], 1), ([GoVal.vint 3], 2)]
      emptyFC).cache.length ≤ 1 :=
  ⟨⟨by decide, ⟨by decide, by decide⟩, rfl, by decide⟩,
   capacity_bound_invariant (fun _ => none) 1
     [([GoVal.vint 1], 0), ([GoVal.vint 2], 1), ([GoVal.vint 3], 2)]
     emptyFC (by decide) ⟨by decide, by decide⟩ rfl (by decide)⟩

/-- Claim C3 as stated is false: the capacity section of lines 79-94 runs
before the memoization check on every call, so a call whose fingerprint is
already in a store at capacity does evict the oldest entry.  Concretely,
with `MaxCacheSize = 2` and cached entries for `(1)` (older) and `(2)`,
a call with `(2)` is a hit (it returns the cached result without invoking
`f`) yet the entry for `(1)` is removed from the store. -/
theorem hit_evicts_at_capacity_cex :
    ((cachedCall (fun _ => none) 2 5
      { cache := [("[1]", some (GoVal.vint 10)), ("[2]", some (GoVal.vint 20))],
        entry := [("[1]", 0), ("[2]", 1)], inflight := [], waits := [] }
      [GoVal.vint 2]).1 = some (GoVal.vint 20) ∧
     (cachedCall (fun _ => none) 2 5
      { cache := [("[1]", some (GoVal.vint 10)), ("[2]", some (GoVal.vint 20))],
        entry := [("[1]", 0), ("[2]", 1)], inflight := [], waits := [] }
      [GoVal.vint 2]).2.2 = 0) ∧
    alLookup
      [(("[1]" : String), some (GoVal.vint 10)), ("[2]", some (GoVal.vint 20))]
      "[1]" = some (some (GoVal.vint 10)) ∧
    alLookup (cachedCall (fun _ => none) 2 5
      { cache := [("[1]", some (GoVal.vint 10)), ("[2]", some (GoVal.vint 20))],
        entry := [("[1]", 0), ("[2]", 1)], inflight := [], waits := [] }
      [GoVal.vint 2]).2.1.cache "[1]" = none := by decide

/-- Claim C3 amended: the capacity enforcer runs at the start of every
call, hits included; only when the store is strictly below `MaxCacheSize`
does a call whose fingerprint is present evict nothing — it then returns
the cached result, leaves every entry (indeed the whole store) unchanged,
and does not invoke `f`. -/
theorem hit_frame_below_capacity (f : List GoVal → Option GoVal)
    (maxSize : Nat) (now : Int) (fc : FunctionCache) (args : List GoVal)
    (r : Option GoVal)
    (hlen : fc.cache.length < maxSize)
    (hhit : alLookup fc.cache (goKey args) = some r) :
    cachedCall f maxSize now fc args = (r, fc, 0) := by
  have he : capacityEvict maxSize fc = fc := capacityEvict_of_lt maxSize fc hlen
  rw [cachedCall_hit_eq f maxSize now fc args r (by rw [he]; exact hhit), he]

/-- Witness for C3 (amended): a hit on a store of one entry with capacity
2 returns the cached value and leaves the store untouched. -/
theorem hit_frame_below_capacity_witness :
    (([(("[7]" : String), some (GoVal.vint 3))].length < 2) ∧
     alLookup [(("[7]" : String), some (GoVal.vint 3))] (goKey [GoVal.vint 7])
       = some (some (GoVal.vint 3))) ∧
    cachedCall (fun _ => none) 2 9
      { cache := [("[7]", some (GoVal.vint 3))], entry := [("[7]", 1)],
        inflight := [], waits := [] } [GoVal.vint 7] =
      (some (GoVal.vint 3),
       { cache := [("[7]", some (GoVal.vint 3))], entry := [("[7]", 1)],
         inflight := [], waits := [] }, 0) :=
  ⟨⟨by decide, by decide⟩,
   hit_frame_below_capacity (fun _ => none) 2 9
     { cache := [("[7]", some (GoVal.vint 3))], entry := [("[7]", 1)],
       inflight := [], waits := [] } [GoVal.vint 7] (some (GoVal.vint 3))
     (by decide) (by decide)⟩

/-- Claim C4: with the store exactly at `MaxCacheSize` with pairwise
distinct insertion timestamps, one call with a fresh key invokes `f`,
admits the new key, removes exactly the entry with the smallest
`insertedAt`, and removes no other entry. -/
theorem oldest_first_eviction (f : List GoVal → Option GoVal)
    (maxSize : Nat) (now : Int) (fc : FunctionCache) (args : List GoVal)
    (k0 : String) (t0 : Int)
    (hwf : WF fc) (hin : fc.inflight = [])
    (hfull : fc.cache.length = maxSize)
    (hdis : fc.entry.Pairwise (fun p q => p.2 ≠ q.2))
    (hmem : (k0, t0) ∈ fc.entry)
    (hmin : ∀ q ∈ fc.entry, t0 ≤ q.2)
    (hfresh : alLookup fc.cache (goKey args) = none) :
    (cachedCall f maxSize now fc args).2.2 = 1 ∧
    alLookup (cachedCall f maxSize now fc args).2.1.cache (goKey args)
      = some (f args) ∧
    alLookup (cachedCall f maxSize now fc args).2.1.cache k0 = none ∧
    alLookup (cachedCall f maxSize now fc args).2.1.entry k0 = none ∧
    (∀ k, k ≠ k0 → k ≠ goKey args →
      alLookup (cachedCall f maxSize now fc args).2.1.cache k
        = alLookup fc.cache k ∧
      alLookup (cachedCall f maxSize now fc args).2.1.entry k
        = alLookup fc.entry k) := by
  have hold : findOldest fc.entry = some (k0, t0) :=
    findOldest_eq_min hdis hmem hmin
  have hev : capacityEvict maxSize fc =
      { fc with cache := alErase fc.cache k0, entry := alErase fc.entry k0 } := by
    unfold capacityEvict
    rw [if_pos (by omega), hold]
  have hkey : goKey args ∉ keysOf fc.cache := (alLookup_eq_none _ _).1 hfresh
  have hk0c : k0 ∈ keysOf fc.cache := by
    rw [hwf.2]
    exact List.mem_map.2 ⟨(k0, t0), hmem, rfl⟩
  have hne : goKey args ≠ k0 := by
    intro he
    rw [he] at hkey
    exact hkey hk0c
  have hmiss : alLookup (capacityEvict maxSize fc).cache (goKey args) = none := by
    rw [hev]
    show alLookup (alErase fc.cache k0) (goKey args) = none
    rw [alLookup_alErase_ne _ hne, hfresh]
  have hnin : goKey args ∉ (capacityEvict maxSize fc).inflight := by
    rw [hev]
    show goKey args ∉ fc.inflight
    rw [hin]; simp
  rw [cachedCall_miss_eq f maxSize now fc args hmiss hnin, hev]
  refine ⟨rfl, ?_, ?_, ?_, ?_⟩
  · exact alLookup_alInsert_self _ _ _
  · show alLookup (alInsert (alErase fc.cache k0) (goKey args) (f args)) k0 = none
    rw [alLookup_alInsert_ne _ _ (fun he => hne he.symm)]
    exact alLookup_alErase_self _ _
  · show alLookup (alInsert (alErase fc.entry k0) (goKey args) now) k0 = none
    rw [alLookup_alInsert_ne _ _ (fun he => hne he.symm)]
    exact alLookup_alErase_self _ _
  · intro k hk0 hka
    constructor
    · show alLookup (alInsert (alErase fc.cache k0) (goKey args) (f args)) k
        = alLookup fc.cache k
      rw [alLookup_alInsert_ne _ _ hka, alLookup_alErase_ne _ hk0]
    · show alLookup (alInsert (alErase fc.entry k0) (goKey args) now) k
        = alLookup fc.entry k
      rw [alLookup_alInsert_ne _ _ hka, alLookup_alErase_ne _ hk0]

/-- Witness for C4: capacity 2, entries `(1)` at time 3 and `(2)` at
time 7; a call with `(5)` evicts exactly `(1)` and admits `(5)`. -/
theorem oldest_first_eviction_witness :
    (WF { cache := [("[1]", some (GoVal.vint 10)), ("[2]", some (GoVal.vint 20))],
          entry := [("[1]", 3), ("[2]", 7)], inflight := [], waits := [] } ∧
     ([(("[1]" : String), some (GoVal.vint 10)), ("[2]", some (GoVal.vint 20))].length = 2) ∧
     (("[1]", (3 : Int)) ∈ [(("[1]" : String), (3 : Int)), ("[2]", 7)]) ∧
     alLookup [(("[1]" : String), some (GoVal.vint 10)), ("[2]", some (GoVal.vint 20))]
       (goKey [GoVal.vint 5]) = none) ∧
    ((cachedCall (fun _ => some (GoVal.vint 50)) 2 9
      { cache := [("[1]", some (GoVal.vint 10)), ("[2]", some (GoVal.vint 20))],
        entry := [("[1]", 3), ("[2]", 7)], inflight := [], waits := [] }
      [GoVal.vint 5]).2.2 = 1 ∧
     alLookup (cachedCall (fun _ => some (GoVal.vint 50)) 2 9
      { cache := [("[1]", some (GoVal.vint 10)), ("[2]", some (GoVal.vint 20))],
        entry := [("[1]", 3), ("[2]", 7)], inflight := [], waits := [] }
      [GoVal.vint 5]).2.1.cache (goKey [GoVal.vint 5])
       = some (some (GoVal.vint 50)) ∧
     alLookup (cachedCall (fun _ => some (GoVal.vint 50)) 2 9
      { cache := [("[1]", some (GoVal.vint 10)), ("[2]", some (GoVal.vint 20))],
        entry := [("[1]", 3), ("[2]", 7)], inflight := [], waits := [] }
      [GoVal.vint 5]).2.1.cache "[1]" = none ∧
     alLookup (cachedCall (fun _ => some (GoVal.vint 50)) 2 9
      { cache := [("[1]", some (GoVal.vint 10)), ("[2]", some (GoVal.vint 20))],
        entry := [("[1]", 3), ("[2]", 7)], inflight := [], waits := [] }
      [GoVal.vint 5]).2.1.entry "[1]" = none ∧
     (∀ k, k ≠ "[1]" → k ≠ goKey [GoVal.vint 5] →
       alLookup (cachedCall (fun _ => some (GoVal.vint 50)) 2 9
        { cache := [("[1]", some (GoVal.vint 10)), ("[2]", some (GoVal.vint 20))],
          entry := [("[1]", 3), ("[2]", 7)], inflight := [], waits := [] }
        [GoVal.vint 5]).2.1.cache k
         = alLookup [(("[1]" : String), some (GoVal.vint 10)), ("[2]", some (GoVal.vint 20))] k ∧
       alLookup (cachedCall (fun _ => some (GoVal.vint 50)) 2 9
        { cache := [("[1]", some (GoVal.vint 10)), ("[2]", some (GoVal.vint 20))],
          entry := [("[1]", 3), ("[2]", 7)], inflight := [], waits := [] }
        [GoVal.vint 5]).2.1.entry k
         = alLookup [(("[1]" : String), (3 : Int)), ("[2]", 7)] k)) :=
  ⟨⟨⟨by decide, by decide⟩, by decide, by decide, by decide⟩,
   oldest_first_eviction (fun _ => some (GoVal.vint 50)) 2 9
     { cache := [("[1]", some (GoVal.vint 10)), ("[2]", some (GoVal.vint 20))],
       entry := [("[1]", 3), ("[2]", 7)], inflight := [], waits := [] }
     [GoVal.vint 5] "[1]" 3 ⟨by decide, by decide⟩ rfl (by decide)
     (by decide) (by decide) (by decide) (by decide)⟩

/-- Claim C5 as stated is false: the distinct tuples `("a b")` and
`("a", "b")` stringify to the same fingerprint `"[a b]"`, so they share a
cache slot — after caching the first, a call with the second is a hit that
returns the first tuple's result (here `1`) without invoking `f`, although
`f` on the second tuple yields `2`. -/
theorem fingerprint_collision_cex :
    [GoVal.vstr "a b"] ≠ [GoVal.vstr "a", GoVal.vstr "b"] ∧
    goKey [GoVal.vstr "a b"] = goKey [GoVal.vstr "a", GoVal.vstr "b"] ∧
    (fun a : List GoVal => some (GoVal.vint a.length)) [GoVal.vstr "a", GoVal.vstr "b"]
      = some (GoVal.vint 2) ∧
    (cachedCall (fun a => some (GoVal.vint a.length)) 1000 1
      (cachedCall (fun a => some (GoVal.vint a.length)) 1000 0 emptyFC
        [GoVal.vstr "a b"]).2.1 [GoVal.vstr "a", GoVal.vstr "b"]).1
      = some (GoVal.vint 1) ∧
    (cachedCall (fun a => some (GoVal.vint a.length)) 1000 1
      (cachedCall (fun a => some (GoVal.vint a.length)) 1000 0 emptyFC
        [GoVal.vstr "a b"]).2.1 [GoVal.vstr "a", GoVal.vstr "b"]).2.2 = 0 := by
  decide

/-- Claim C5 amended: tuples whose `%v` renderings (fingerprints) differ
never share a cache slot: with both fingerprints fresh and the store
below capacity, calling with `a` and then with `b` invokes `f` on each
tuple, and the store afterwards holds each tuple's own result under its
own fingerprint — the two results are independent.  Tuples with equal
renderings (a ≠ b possible) share a slot, as the counterexample shows. -/
theorem distinct_fingerprints_independent (f : List GoVal → Option GoVal)
    (maxSize : Nat) (now₁ now₂ : Int) (fc : FunctionCache)
    (a b : List GoVal)
    (hin : fc.inflight = [])
    (hka : alLookup fc.cache (goKey a) = none)
    (hkb : alLookup fc.cache (goKey b) = none)
    (hne : goKey a ≠ goKey b)
    (hlen : fc.cache.length + 2 ≤ maxSize) :
    (cachedCall f maxSize now₁ fc a).1 = f a ∧
    (cachedCall f maxSize now₂ (cachedCall f maxSize now₁ fc a).2.1 b).1 = f b ∧
    (cachedCall f maxSize now₁ fc a).2.2 = 1 ∧
    (cachedCall f maxSize now₂ (cachedCall f maxSize now₁ fc a).2.1 b).2.2 = 1 ∧
    alLookup (cachedCall f maxSize now₂
      (cachedCall f maxSize now₁ fc a).2.1 b).2.1.cache (goKey a) = some (f a) ∧
    alLookup (cachedCall f maxSize now₂
      (cachedCall f maxSize now₁ fc a).2.1 b).2.1.cache (goKey b) = some (f b) := by
  have he1 : capacityEvict maxSize fc = fc :=
    capacityEvict_of_lt maxSize fc (by omega)
  have hmiss1 : alLookup (capacityEvict maxSize fc).cache (goKey a) = none := by
    rw [he1]; exact hka
  have hnin1 : goKey a ∉ (capacityEvict maxSize fc).inflight := by
    rw [he1, hin]; simp
  have hc1 := cachedCall_miss_eq f maxSize now₁ fc a hmiss1 hnin1
  rw [hc1]
  have hkeya : goKey a ∉ keysOf fc.cache := (alLookup_eq_none _ _).1 hka
  have hlen1 : (alInsert (capacityEvict maxSize fc).cache (goKey a) (f a)).length
      = fc.cache.length + 1 := by
    rw [he1, length_alInsert, alErase_of_not_mem hkeya]
  have he2 : capacityEvict maxSize
      { cache := alInsert (capacityEvict maxSize fc).cache (goKey a) (f a),
        entry := alInsert (capacityEvict maxSize fc).entry (goKey a) now₁,
        inflight := slErase (capacityEvict maxSize fc).inflight (goKey a),
        waits := (capacityEvict maxSize fc).waits } =
      { cache := alInsert (capacityEvict maxSize fc).cache (goKey a) (f a),
        entry := alInsert (capacityEvict maxSize fc).entry (goKey a) now₁,
        inflight := slErase (capacityEvict maxSize fc).inflight (goKey a),
        waits := (capacityEvict maxSize fc).waits } := by
    apply capacityEvict_of_lt
    show (alInsert (capacityEvict maxSize fc).cache (goKey a) (f a)).length < maxSize
    omega
  have hmiss2 : alLookup (capacityEvict maxSize
      { cache := alInsert (capacityEvict maxSize fc).cache (goKey a) (f a),
        entry := alInsert (capacityEvict maxSize fc).entry (goKey a) now₁,
        inflight := slErase (capacityEvict maxSize fc).inflight (goKey a),
        waits := (capacityEvict maxSize fc).waits }).cache (goKey b) = none := by
    rw [he2]
    show alLookup (alInsert (capacityEvict maxSize fc).cache (goKey a) (f a))
      (goKey b) = none
    rw [alLookup_alInsert_ne _ _ (fun he => hne he.symm), he1]
    exact hkb
  have hnin2 : goKey b ∉ (capacityEvict maxSize
      { cache := alInsert (capacityEvict maxSize fc).cache (goKey a) (f a),
        entry := alInsert (capacityEvict maxSize fc).entry (goKey a) now₁,
        inflight := slErase (capacityEvict maxSize fc).inflight (goKey a),
        waits := (capacityEvict maxSize fc).waits }).inflight := by
    rw [he2]
    show goKey b ∉ slErase (capacityEvict maxSize fc).inflight (goKey a)
    rw [he1, hin]
    simp [slErase]
  rw [cachedCall_miss_eq f maxSize now₂ _ b hmiss2 hnin2, he2]
  refine ⟨rfl, rfl, rfl, rfl, ?_, ?_⟩
  · show alLookup (alInsert (alInsert (capacityEvict maxSize fc).cache (goKey a) (f a))
      (goKey b) (f b)) (goKey a) = some (f a)
    rw [alLookup_alInsert_ne _ _ hne]
    exact alLookup_alInsert_self _ _ _
  · exact alLookup_alInsert_self _ _ _

/-- Witness for C5 (amended): tuples `(1)` and `(2)` have different
fingerprints and end with independent slots and results. -/
theorem distinct_fingerprints_independent_witness :
    (emptyFC.inflight = [] ∧
     alLookup emptyFC.cache (goKey [GoVal.vint 1]) = none ∧
     alLookup emptyFC.cache (goKey [GoVal.vint 2]) = none ∧
     goKey [GoVal.vint 1] ≠ goKey [GoVal.vint 2] ∧
     emptyFC.cache.length + 2 ≤ 1000) ∧
    ((cachedCall (fun a => some (GoVal.vint a.length)) 1000 0 emptyFC
        [GoVal.vint 1]).1
      = (fun a : List GoVal => some (GoVal.vint a.length)) [GoVal.vint 1] ∧
     (cachedCall (fun a => some (GoVal.vint a.length)) 1000 1
        (cachedCall (fun a => some (GoVal.vint a.length)) 1000 0 emptyFC
          [GoVal.vint 1]).2.1 [GoVal.vint 2]).1
      = (fun a : List GoVal => some (GoVal.vint a.length)) [GoVal.vint 2] ∧
     (cachedCall (fun a => some (GoVal.vint a.length)) 1000 0 emptyFC
        [GoVal.vint 1]).2.2 = 1 ∧
     (cachedCall (fun a => some (GoVal.vint a.length)) 1000 1
        (cachedCall (fun a => some (GoVal.vint a.length)) 1000 0 emptyFC
          [GoVal.vint 1]).2.1 [GoVal.vint 2]).2.2 = 1 ∧
     alLookup (cachedCall (fun a => some (GoVal.vint a.length)) 1000 1
        (cachedCall (fun a => some (GoVal.vint a.length)) 1000 0 emptyFC
          [GoVal.vint 1]).2.1 [GoVal.vint 2]).2.1.cache (goKey [GoVal.vint 1])
      = some ((fun a : List GoVal => some (GoVal.vint a.length)) [GoVal.vint 1]) ∧
     alLookup (cachedCall (fun a => some (GoVal.vint a.length)) 1000 1
        (cachedCall (fun a => some (GoVal.vint a.length)) 1000 0 emptyFC
          [GoVal.vint 1]).2.1 [GoVal.vint 2]).2.1.cache (goKey [GoVal.vint 2])
      = some ((fun a : List GoVal => some (GoVal.vint a.length)) [GoVal.vint 2])) :=
  ⟨⟨rfl, rfl, rfl, by decide, by decide⟩,
   distinct_fingerprints_independent (fun a => some (GoVal.vint a.length))
     1000 0 1 emptyFC [GoVal.vint 1] [GoVal.vint 2] rfl rfl rfl
     (by decide) (by decide)⟩

/-- Claim C10: the "unavailable" sentinel is `nil` (`none`), which
coincides with a legitimately cached result: for an underlying function
returning `nil`, a genuine cache hit (no invocation of `f`) returns
`none` — the very value the waiter path returns when the entry is absent
after waking (here on a store whose in-flight table holds the key but
whose result store does not), so the two cases are indistinguishable to
the caller. -/
theorem nil_sentinel_indistinguishable :
    (cachedCall (fun _ => none) 1000 1
      (cachedCall (fun _ => none) 1000 0 emptyFC [GoVal.vint 1]).2.1
      [GoVal.vint 1]).1 = none ∧
    (cachedCall (fun _ => none) 1000 1
      (cachedCall (fun _ => none) 1000 0 emptyFC [GoVal.vint 1]).2.1
      [GoVal.vint 1]).2.2 = 0 ∧
    (cachedCall (fun _ => some (GoVal.vint 7)) 1000 2
      { cache := [], entry := [], inflight := ["[1]"], waits := [] }
      [GoVal.vint 1]).1 = none ∧
    (cachedCall (fun _ => some (GoVal.vint 7)) 1000 2
      { cache := [], entry := [], inflight := ["[1]"], waits := [] }
      [GoVal.vint 1]).2.2 = 0 := by
  decide

/-! Interleaved execution of concurrent callers.

Each goroutine executing the wrapped function passes through the atomic
critical sections delimited by `cached.m.Lock()`/`Unlock()` in
src/cached.go: the capacity section (79-94 → `capacity`), the memoization
section (97-103 → `memo`), the in-flight check (106-126 → `flight`, which
either suspends the goroutine as a waiter in `cond[key].Wait()` or falls
through), registration of the computer (129-133 → `register`), the call
of `f` outside any lock (137 → `invoke`), the store section (140-143 →
`store`), and the notify section (146-154 → `notify`, whose
`Broadcast()` moves every waiter on the key to `woken`; a woken waiter
then re-reads the store, lines 114-124).  `step` executes the next atomic
section of one chosen goroutine. -/

/-- Program counter of one goroutine inside the wrapped function. -/
inductive PC
  | capacity
  | memo
  | flight
  | register
  | invoke
  | store
  | notify
  | waiting
  | woken
  | done
  deriving DecidableEq, Repr

/-- One goroutine: its position, its argument tuple, and the result it
computed or returned. -/
structure GState where
  pc : PC
  args : List GoVal
  res : Option GoVal
  deriving DecidableEq, Repr

/-- The whole system: the shared store, the goroutines, and the total
number of invocations of the underlying function. -/
structure Sys where
  fc : FunctionCache
  gs : List GState
  fCalls : Nat
  deriving DecidableEq, Repr

/-- Execute the next atomic section of goroutine `i` (no effect if `i` is
finished, suspended, or out of range). -/
def step (f : List GoVal → Option GoVal) (maxSize : Nat) (now : Int)
    (sys : Sys) (i : Nat) : Sys :=
  match sys.gs[i]? with
  | none => sys
  | some g =>
    match g.pc with
    | .capacity =>
        { sys with fc := capacityEvict maxSize sys.fc,
                   gs := sys.gs.set i { g with pc := .memo } }
    | .memo =>
        match alLookup sys.fc.cache (goKey g.args) with
        | some r => { sys with gs := sys.gs.set i { g with pc := .done, res := r } }
        | none => { sys with gs := sys.gs.set i { g with pc := .flight } }
    | .flight =>
        if goKey g.args ∈ sys.fc.inflight then
          { sys with
              fc := { sys.fc with
                waits := alInsert sys.fc.waits (goKey g.args)
                  ((alLookup sys.fc.waits (goKey g.args)).getD 0 + 1) },
              gs := sys.gs.set i { g with pc := .waiting } }
        else
          { sys with gs := sys.gs.set i { g with pc := .register } }
    | .register =>
        { sys with
            fc := { sys.fc with inflight := slInsert sys.fc.inflight (goKey g.args) },
            gs := sys.gs.set i { g with pc := .invoke } }
    | .invoke =>
        { sys with fCalls := sys.fCalls + 1,
                   gs := sys.gs.set i { g with pc := .store, res := f g.args } }
    | .store =>
        { sys with
            fc := { sys.fc with
              cache := alInsert sys.fc.cache (goKey g.args) g.res,
              entry := alInsert sys.fc.entry (goKey g.args) now },
            gs := sys.gs.set i { g with pc := .notify } }
    | .notify =>
        if goKey g.args ∈ sys.fc.inflight then
          { sys with
              fc := { sys.fc with
                inflight := slErase sys.fc.inflight (goKey g.args) },
              gs := (sys.gs.map (fun w =>
                  if w.pc = PC.waiting ∧ goKey w.args = goKey g.args then
                    { w with pc := PC.woken }
                  else w)).set i { g with pc := .done } }
        else
          { sys with gs := sys.gs.set i { g with pc := .done } }
    | .waiting => sys
    | .woken =>
        match alLookup sys.fc.cache (goKey g.args) with
        | some r => { sys with gs := sys.gs.set i { g with pc := .done, res := r } }
        | none => { sys with gs := sys.gs.set i { g with pc := .done, res := none } }
    | .done => sys

/-- Run a schedule: at each position, the named goroutine executes its
next atomic section. -/
def runSched (f : List GoVal → Option GoVal) (maxSize : Nat) (now : Int)
    (sched : List Nat) (sys : Sys) : Sys :=
  sched.foldl (step f maxSize now) sys

/-- Claim C6: a goroutine that registered as a waiter on an in-flight
marker and was woken, but finds no cached entry for its fingerprint,
returns the `nil` sentinel (`none`) and does not invoke the underlying
function: its step leaves the store and the invocation count unchanged
and finishes the goroutine with result `none`. -/
theorem waiter_unavailable_sentinel (f : List GoVal → Option GoVal)
    (maxSize : Nat) (now : Int) (sys : Sys) (i : Nat) (g : GState)
    (hg : sys.gs[i]? = some g) (hpc : g.pc = PC.woken)
    (hmiss : alLookup sys.fc.cache (goKey g.args) = none) :
    (step f maxSize now sys i).gs
      = sys.gs.set i { g with pc := PC.done, res := none } ∧
    (step f maxSize now sys i).fCalls = sys.fCalls ∧
    (step f maxSize now sys i).fc = sys.fc := by
  simp only [step, hg, hpc, hmiss]
  exact ⟨trivial, trivial, trivial⟩

/-- Witness for C6: one goroutine at `woken` with an empty store finishes
with the sentinel `none`, leaving the store and the invocation count
untouched. -/
theorem waiter_unavailable_sentinel_witness :
    (({ fc := emptyFC,
        gs := [{ pc := PC.woken, args := [GoVal.vint 1], res := some (GoVal.vint 9) }],
        fCalls := 0 } : Sys).gs[0]?
        = some { pc := PC.woken, args := [GoVal.vint 1], res := some (GoVal.vint 9) } ∧
     alLookup emptyFC.cache (goKey [GoVal.vint 1]) = none) ∧
    ((step (fun _ => some (GoVal.vint 3)) 1000 0
      { fc := emptyFC,
        gs := [{ pc := PC.woken, args := [GoVal.vint 1], res := some (GoVal.vint 9) }],
        fCalls := 0 } 0).gs
      = [{ pc := PC.done, args := [GoVal.vint 1], res := none }] ∧
     (step (fun _ => some (GoVal.vint 3)) 1000 0
      { fc := emptyFC,
        gs := [{ pc := PC.woken, args := [GoVal.vint 1], res := some (GoVal.vint 9) }],
        fCalls := 0 } 0).fCalls = 0 ∧
     (step (fun _ => some (GoVal.vint 3)) 1000 0
      { fc := emptyFC,
        gs := [{ pc := PC.woken, args := [GoVal.vint 1], res := some (GoVal.vint 9) }],
        fCalls := 0 } 0).fc = emptyFC) :=
  ⟨⟨rfl, rfl⟩,
   waiter_unavailable_sentinel (fun _ => some (GoVal.vint 3)) 1000 0
     { fc := emptyFC,
       gs := [{ pc := PC.woken, args := [GoVal.vint 1], res := some (GoVal.vint 9) }],
       fCalls := 0 } 0
     { pc := PC.woken, args := [GoVal.vint 1], res := some (GoVal.vint 9) }
     rfl rfl rfl⟩

/-- Claim C9 is violated by the code: the in-flight check (lines 106-126)
and the registration of the computer (lines 129-133) sit in different
critical sections, so two concurrent calls with the identical tuple `(1)`
can both pass the check before either registers.  In the interleaving
below both goroutines run their first three sections (capacity, memo,
in-flight check) back to back and then both register and both invoke `f`:
the underlying function executes twice — not exactly once — although both
callers do receive the same result. -/
theorem dedup_race_two_invocations :
    (runSched (fun _ => some (GoVal.vint 42)) 1000 0
      [0, 0, 0, 1, 1, 1, 0, 1, 0, 1, 0, 1, 0, 1]
      { fc := emptyFC,
        gs := [{ pc := PC.capacity, args := [GoVal.vint 1], res := none },
               { pc := PC.capacity, args := [GoVal.vint 1], res := none }],
        fCalls := 0 }).fCalls = 2 ∧
    (runSched (fun _ => some (GoVal.vint 42)) 1000 0
      [0, 0, 0, 1, 1, 1, 0, 1, 0, 1, 0, 1, 0, 1]
      { fc := emptyFC,
        gs := [{ pc := PC.capacity, args := [GoVal.vint 1], res := none },
               { pc := PC.capacity, args := [GoVal.vint 1], res := none }],
        fCalls := 0 }).gs
      = [{ pc := PC.done, args := [GoVal.vint 1], res := some (GoVal.vint 42) },
         { pc := PC.done, args := [GoVal.vint 1], res := some (GoVal.vint 42) }] := by
  decide

end Cached
